import Mathlib

/-!
# Verification of the Localizer LRU cache (src/RUST/start/src/main.rs)

Shallow embedding of the `Localizer` struct and its operations
(`langs_cache_manager`, `get_text_by_key`, `rescan_languages`,
`reload_language`, `reload_all`).  Rust `HashMap`s are modelled as
association lists whose operations keep keys unique (`mapInsert` replaces,
`mapRemove` deletes); `Vec<String>` is a `List String`.  File reads,
JSON parsing and directory enumeration are external collaborators and are
modelled by an explicit environment `Env`; the `&mut self` receiver is
modelled by returning the updated state next to the `Result`, so that
mutations performed before an early `?` return are preserved, exactly as
in Rust.
-/

/-- Rust `std::io::ErrorKind` values used by the program. -/
inductive ErrorKind where
  | NotFound
  | InvalidData
  | Other
  deriving DecidableEq, Repr

/-- Rust `std::io::Error`: a kind together with its message. -/
structure IoError where
  kind : ErrorKind
  msg : String
  deriving DecidableEq, Repr

/-- A parsed language table: `HashMap<String, String>` from text key to text. -/
abbrev Table := List (String × String)

/-- File locations (`PathBuf`) are opaque strings here. -/
abbrev PathBuf := String

/-- `HashMap::get`: first entry whose key equals `k` (keys are unique in
reachable maps, so first-match is exact `HashMap` behaviour). -/
def mapGet {α : Type} : List (String × α) → String → Option α
  | [], _ => none
  | (k', v) :: rest, k => if k' = k then some v else mapGet rest k

/-- `HashMap::contains_key`. -/
def mapContains {α : Type} (m : List (String × α)) (k : String) : Bool :=
  (mapGet m k).isSome

/-- `HashMap::remove` (drops every binding of `k`; a single one when keys
are unique). -/
def mapRemove {α : Type} (m : List (String × α)) (k : String) : List (String × α) :=
  m.filter (fun p => decide (p.1 ≠ k))

/-- `HashMap::insert`: bind `k` to `v`, replacing any previous binding. -/
def mapInsert {α : Type} (m : List (String × α)) (k : String) (v : α) : List (String × α) :=
  (k, v) :: mapRemove m k

/-- `Vec::retain(|l| l != lang)`. -/
def listRetain (l : List String) (lang : String) : List String :=
  l.filter (fun x => decide (x ≠ lang))

/-- The key set of a cache mapping. -/
def keysOf {α : Type} (m : List (String × α)) : List String :=
  m.map Prod.fst

/-- The `Localizer` struct (main.rs lines 15-20). -/
structure Localizer where
  supported_languages : List (String × PathBuf)
  supported_languages_cache : List (String × Table)
  lru_order : List String
  sup_lang_cache_limit : Nat
  deriving DecidableEq, Repr

/-- External collaborators: the file system read, the JSON parser
(`serde_json::from_str`), and the directory enumeration performed by
`scan_languages` (whose outcome at rescan time is `scanResult`). -/
structure Env where
  readFile : PathBuf → Except IoError String
  parseLangMap : String → Except String Table
  scanResult : Except IoError (List (String × PathBuf))

/-- The load section of `langs_cache_manager` (main.rs lines 35-39):
catalog lookup (`NotFound` on a missing entry), file read, JSON parse
(`InvalidData` on malformed content). -/
def loadTable (env : Env) (catalog : List (String × PathBuf)) (lang : String) :
    Except IoError Table :=
  match mapGet catalog lang with
  | none => .error ⟨.NotFound, "Language file not found"⟩
  | some path =>
    match env.readFile path with
    | .error e => .error e
    | .ok data =>
      match env.parseLangMap data with
      | .error e => .error ⟨.InvalidData, "Failed to parse JSON: " ++ e⟩
      | .ok lang_map => .ok lang_map

/-- `langs_cache_manager` (main.rs lines 24-58).  Returns the Rust
`Result<bool>` together with the state left in `self`; note that on the
cache-miss path the recency vector is updated *before* the load is
attempted, so a failing load still leaves `_lang` pushed onto
`lru_order`, exactly as the `?` operators on lines 35-39 do. -/
def langs_cache_manager (env : Env) (st : Localizer) (_key _lang : String) :
    Except IoError Bool × Localizer :=
  if mapContains st.supported_languages_cache _lang then
    (.ok true,
      { st with lru_order := listRetain st.lru_order _lang ++ [_lang] })
  else if !mapContains st.supported_languages_cache _lang then
    let lru2 := listRetain st.lru_order _lang ++ [_lang]
    match loadTable env st.supported_languages _lang with
    | .error e => (.error e, { st with lru_order := lru2 })
    | .ok lang_map =>
      let cache2 := mapInsert st.supported_languages_cache _lang lang_map
      if cache2.length ≤ st.sup_lang_cache_limit then
        (.ok true, { st with supported_languages_cache := cache2, lru_order := lru2 })
      else
        -- `lru_order.remove(0)`: `lru2` ends in `[_lang]` so it is nonempty
        -- and the `Vec::remove` cannot panic; `headI`/`tail` are its head
        -- and the remainder.
        (.ok true,
          { st with
            supported_languages_cache := mapRemove cache2 lru2.headI
            lru_order := lru2.tail })
  else if st.supported_languages.length = 0 then
    (.ok false, st)
  else
    (.ok false, { st with supported_languages_cache := [], lru_order := [] })

/-- The effective-language computation of `get_text_by_key`
(main.rs lines 122-132). -/
def resolveLang (catalog : List (String × PathBuf)) (_lang fallback : String) : String :=
  let effective_fallback :=
    if fallback ≠ "" ∧ ¬ mapContains catalog _lang then fallback else "en-GB"
  if mapContains catalog _lang then _lang else effective_fallback

/-- `get_text_by_key` (main.rs lines 121-147).  `effective_lang` in the
source is the pure value `resolveLang st.supported_languages _lang
fallback`, written out at both of its use sites. -/
def get_text_by_key (env : Env) (st : Localizer) (_key _lang fallback : String) :
    Except IoError String × Localizer :=
  match langs_cache_manager env st _key
      (resolveLang st.supported_languages _lang fallback) with
  | (.error e, st') => (.error e, st')
  | (.ok passing, st') =>
    match mapGet st'.supported_languages_cache
        (resolveLang st.supported_languages _lang fallback) with
    | none => (.error ⟨.NotFound, "Language not found in cache"⟩, st')
    | some lang_map =>
      if passing then
        if mapContains lang_map _key then
          match mapGet lang_map _key with
          | some v => (.ok v, st')
          | none => (.error ⟨.NotFound, "Key not found in language map"⟩, st')
        else
          (.error ⟨.NotFound, "Key not found in language map"⟩, st')
      else
        (.error ⟨.Other, "Failed to manage language cache"⟩, st')

/-- `get_text_by_key` with the `passing == false` branch (main.rs lines
144-146, the error "Failed to manage language cache") removed: the claim
that this branch is dead states that `get_text_by_key` coincides with
this function. -/
def get_text_by_key_live (env : Env) (st : Localizer) (_key _lang fallback : String) :
    Except IoError String × Localizer :=
  match langs_cache_manager env st _key
      (resolveLang st.supported_languages _lang fallback) with
  | (.error e, st') => (.error e, st')
  | (.ok _, st') =>
    match mapGet st'.supported_languages_cache
        (resolveLang st.supported_languages _lang fallback) with
    | none => (.error ⟨.NotFound, "Language not found in cache"⟩, st')
    | some lang_map =>
      if mapContains lang_map _key then
        match mapGet lang_map _key with
        | some v => (.ok v, st')
        | none => (.error ⟨.NotFound, "Key not found in language map"⟩, st')
      else
        (.error ⟨.NotFound, "Key not found in language map"⟩, st')

/-- `rescan_languages` (main.rs lines 149-158): replace the catalog with the
fresh enumeration, then drop every *new* catalog code from the cache and
from the recency vector. -/
def rescan_languages (env : Env) (st : Localizer) :
    Except IoError Bool × Localizer :=
  match env.scanResult with
  | .error e => (.error e, st)
  | .ok lang_files =>
    let st1 := { st with supported_languages := lang_files }
    let cache' := st1.supported_languages.foldl
      (fun c p => mapRemove c p.1) st1.supported_languages_cache
    let lru' := st1.supported_languages.foldl
      (fun l p => listRetain l p.1) st1.lru_order
    (.ok true, { st1 with supported_languages_cache := cache', lru_order := lru' })

/-- `reload_language` (main.rs lines 160-170): drop `_lang` from the cache
and the recency vector, then force a fresh load through
`langs_cache_manager`. -/
def reload_language (env : Env) (st : Localizer) (_lang : String) :
    Except IoError Bool × Localizer :=
  if mapContains st.supported_languages _lang then
    match langs_cache_manager env
        { st with
          supported_languages_cache := mapRemove st.supported_languages_cache _lang
          lru_order := listRetain st.lru_order _lang } "" _lang with
    | (.error e, st') => (.error e, st')
    | (.ok _, st') => (.ok true, st')
  else
    (.error ⟨.NotFound, "Language not supported"⟩, st)

/-- `reload_all` (main.rs lines 172-177). -/
def reload_all (env : Env) (st : Localizer) :
    Except IoError Bool × Localizer :=
  match rescan_languages env
      { st with supported_languages_cache := [], lru_order := [] } with
  | (.error e, st') => (.error e, st')
  | (.ok _, st') => (.ok true, st')

/-- A `Localizer` as built by `Localizer::new` for a given scan result and
capacity: empty cache and empty recency vector (main.rs lines 99-104;
`new` fixes the capacity to 5, the spec treats it as the parameter N). -/
def initLocalizer (catalog : List (String × PathBuf)) (limit : Nat) : Localizer :=
  { supported_languages := catalog
    supported_languages_cache := []
    lru_order := []
    sup_lang_cache_limit := limit }

/-- The set-parity invariant of the spec: the keys of
`supported_languages_cache` and the elements of `lru_order` form the same
set, and `lru_order` has no duplicates. -/
def SetParity (st : Localizer) : Prop :=
  (∀ x : String, x ∈ keysOf st.supported_languages_cache ↔ x ∈ st.lru_order) ∧
  st.lru_order.Nodup

/-- Well-formedness: set parity plus uniqueness of the cache mapping's
keys (automatic for a Rust `HashMap`). -/
def StateWF (st : Localizer) : Prop :=
  SetParity st ∧ (keysOf st.supported_languages_cache).Nodup

/-- Well-formedness of a cache mapping / recency vector pair: same key
set, recency vector duplicate-free, mapping keys unique. -/
def PairWF (c : List (String × Table)) (l : List String) : Prop :=
  (∀ x : String, x ∈ keysOf c ↔ x ∈ l) ∧ l.Nodup ∧ (keysOf c).Nodup

/-- `msg` mentions `needle` as a contiguous substring. -/
def mentions (msg needle : String) : Prop :=
  needle.toList <:+: msg.toList

instance (msg needle : String) : Decidable (mentions msg needle) := by
  unfold mentions
  infer_instance

/-- An environment in which every external operation fails. -/
def envEmpty : Env :=
  { readFile := fun _ => .error ⟨.Other, "no fs"⟩
    parseLangMap := fun _ => .error "no parse"
    scanResult := .error ⟨.Other, "no scan"⟩ }

/-- Environment for the capacity counterexample: files `pb`, `pc` exist and
parse to one-key tables. -/
def envC3 : Env :=
  { readFile := fun p =>
      if p = "pb" then .ok "B" else if p = "pc" then .ok "C"
      else .error ⟨.Other, "io"⟩
    parseLangMap := fun s =>
      if s = "B" then .ok [("k", "vb")] else if s = "C" then .ok [("k", "vc")]
      else .error "bad"
    scanResult := .error ⟨.Other, "no scan"⟩ }

def catC3 : List (String × PathBuf) := [("b", "pb"), ("c", "pc")]

/-- State reached from `initLocalizer catC3 1` by one `get_text_by_key`
whose load fails: the unloadable code "yy" stays in `lru_order`. -/
def stPhantom : Localizer :=
  (get_text_by_key envC3 (initLocalizer catC3 1) "k" "zz" "yy").2

/-- `stPhantom` after successfully loading "b": cache `{b}`, recency
`["yy", "b"]` with the phantom entry "yy" still at the front. -/
def stPhantomB : Localizer :=
  (get_text_by_key envC3 stPhantom "k" "b" "").2

/-- Environment whose files all read back their own path and parse to the
one-entry table `{"k": path}`. -/
def envABC : Env :=
  { readFile := fun p => .ok p
    parseLangMap := fun s => .ok [("k", s)]
    scanResult := .error ⟨.Other, "no scan"⟩ }

def catABC : List (String × PathBuf) := [("a", "pa"), ("b", "pb"), ("c", "pc")]

/-- A state with cache `{a, b}` and recency `[a, b]` at capacity 2. -/
def stAB : Localizer :=
  { supported_languages := catABC
    supported_languages_cache := [("a", [("k", "va")]), ("b", [("k", "vb")])]
    lru_order := ["a", "b"]
    sup_lang_cache_limit := 2 }

/-- Environment for the key-miss counterexample: the single catalog file
parses to a table that lacks the requested key. -/
def envC8 : Env :=
  { readFile := fun _ => .ok "D"
    parseLangMap := fun _ => .ok [("other", "v")]
    scanResult := .error ⟨.Other, "no scan"⟩ }

/-- Environment whose directory enumeration yields `{b, d}`. -/
def envScan : Env :=
  { readFile := fun _ => .error ⟨.Other, "io"⟩
    parseLangMap := fun _ => .error "bad"
    scanResult := .ok [("b", "pb2"), ("d", "pd")] }

/-- Environment in which every file read fails (for reload-failure
witnesses). -/
def envFailLoad : Env :=
  { readFile := fun _ => .error ⟨.Other, "io fail"⟩
    parseLangMap := fun _ => .error "bad"
    scanResult := .error ⟨.Other, "no scan"⟩ }

/-! ## Basic lemmas about the map and list operations -/

theorem mem_listRetain {l : List String} {x k : String} :
    x ∈ listRetain l k ↔ x ∈ l ∧ x ≠ k := by
  simp [listRetain, List.mem_filter]

theorem listRetain_of_not_mem {l : List String} {k : String} (h : k ∉ l) :
    listRetain l k = l := by
  simp only [listRetain]
  rw [List.filter_eq_self]
  intro a ha
  simp only [decide_eq_true_eq]
  rintro rfl
  exact h ha

theorem listRetain_nodup {l : List String} (k : String) (h : l.Nodup) :
    (listRetain l k).Nodup :=
  h.filter _

theorem not_mem_listRetain_self {l : List String} {k : String} :
    k ∉ listRetain l k := by
  simp [mem_listRetain]

theorem mapContains_iff {α : Type} {m : List (String × α)} {k : String} :
    mapContains m k = true ↔ k ∈ keysOf m := by
  induction m with
  | nil => simp [mapContains, mapGet, keysOf]
  | cons p rest ih =>
    obtain ⟨k', v⟩ := p
    by_cases hk : k' = k
    · subst hk
      simp [mapContains, mapGet, keysOf]
    · simp only [mapContains, mapGet, if_neg hk, keysOf, List.map_cons, List.mem_cons]
      rw [← keysOf, ← mapContains, ih]
      constructor
      · exact fun h => Or.inr h
      · rintro (h | h)
        · exact absurd h.symm hk
        · exact h

theorem mapContains_eq_false_iff {α : Type} {m : List (String × α)} {k : String} :
    mapContains m k = false ↔ k ∉ keysOf m := by
  rw [← mapContains_iff]
  cases mapContains m k <;> simp

theorem keysOf_mapRemove {α : Type} (m : List (String × α)) (k : String) :
    keysOf (mapRemove m k) = listRetain (keysOf m) k := by
  induction m with
  | nil => rfl
  | cons p rest ih =>
    by_cases hk : p.1 = k
    · simpa [mapRemove, keysOf, listRetain, List.filter_cons, hk] using ih
    · simpa [mapRemove, keysOf, listRetain, List.filter_cons, hk] using ih

theorem mapRemove_of_not_contains {α : Type} {m : List (String × α)} {k : String}
    (h : mapContains m k = false) : mapRemove m k = m := by
  rw [mapContains_eq_false_iff] at h
  rw [mapRemove, List.filter_eq_self]
  intro p hp
  simp only [decide_eq_true_eq]
  rintro rfl
  exact h (List.mem_map_of_mem Prod.fst hp)

theorem keysOf_mapInsert {α : Type} (m : List (String × α)) (k : String) (v : α) :
    keysOf (mapInsert m k v) = k :: listRetain (keysOf m) k := by
  show k :: keysOf (mapRemove m k) = _
  rw [keysOf_mapRemove]

theorem length_listRetain_add_one {l : List String} {k : String}
    (hnd : l.Nodup) (hk : k ∈ l) :
    (listRetain l k).length + 1 = l.length := by
  induction l with
  | nil => simp at hk
  | cons a rest ih =>
    rw [List.nodup_cons] at hnd
    by_cases hak : a = k
    · subst hak
      have h1 : listRetain (a :: rest) a = listRetain rest a := by
        simp [listRetain, List.filter_cons]
      rw [h1, listRetain_of_not_mem hnd.1]
      simp
    · rcases List.mem_cons.mp hk with h | h
      · exact absurd h.symm hak
      · have h1 : listRetain (a :: rest) k = a :: listRetain rest k := by
          simp [listRetain, List.filter_cons, hak]
        have h2 := ih hnd.2 h
        rw [h1]
        simp only [List.length_cons]
        omega

theorem length_mapRemove_add_one {α : Type} {m : List (String × α)} {k : String}
    (hnd : (keysOf m).Nodup) (hk : k ∈ keysOf m) :
    (mapRemove m k).length + 1 = m.length := by
  have h1 := length_listRetain_add_one hnd hk
  rw [← keysOf_mapRemove] at h1
  simpa [keysOf, List.length_map] using h1

/-! ## Shape lemmas for `langs_cache_manager` -/

theorem manager_hit (env : Env) (st : Localizer) (key lang : String)
    (hc : mapContains st.supported_languages_cache lang = true) :
    langs_cache_manager env st key lang =
      (.ok true, { st with lru_order := listRetain st.lru_order lang ++ [lang] }) := by
  simp [langs_cache_manager, hc]

theorem manager_miss_error (env : Env) (st : Localizer) (key lang : String)
    (e : IoError)
    (hc : mapContains st.supported_languages_cache lang = false)
    (hl : loadTable env st.supported_languages lang = .error e) :
    langs_cache_manager env st key lang =
      (.error e, { st with lru_order := listRetain st.lru_order lang ++ [lang] }) := by
  simp [langs_cache_manager, hc, hl]

theorem manager_miss_ok (env : Env) (st : Localizer) (key lang : String)
    (t : Table)
    (hc : mapContains st.supported_languages_cache lang = false)
    (hl : loadTable env st.supported_languages lang = .ok t) :
    langs_cache_manager env st key lang =
      (if (mapInsert st.supported_languages_cache lang t).length ≤ st.sup_lang_cache_limit then
        (.ok true,
          { st with
            supported_languages_cache := mapInsert st.supported_languages_cache lang t
            lru_order := listRetain st.lru_order lang ++ [lang] })
      else
        (.ok true,
          { st with
            supported_languages_cache :=
              mapRemove (mapInsert st.supported_languages_cache lang t)
                ((listRetain st.lru_order lang ++ [lang]).headI)
            lru_order := (listRetain st.lru_order lang ++ [lang]).tail })) := by
  simp [langs_cache_manager, hc, hl]

theorem manager_ok_true {env : Env} {st : Localizer} {key lang : String}
    {b : Bool} {st' : Localizer}
    (h : langs_cache_manager env st key lang = (.ok b, st')) : b = true := by
  cases hc : mapContains st.supported_languages_cache lang with
  | true =>
    rw [manager_hit env st key lang hc] at h
    simp only [Prod.mk.injEq] at h
    exact (Except.ok.injEq _ _ ▸ congrArg id h.1).symm ▸ by
      cases h.1
      rfl
  | false =>
    cases hl : loadTable env st.supported_languages lang with
    | error e =>
      rw [manager_miss_error env st key lang e hc hl] at h
      simp at h
    | ok t =>
      rw [manager_miss_ok env st key lang t hc hl] at h
      split at h <;>
        · simp only [Prod.mk.injEq] at h
          cases h.1
          rfl

/-! ## Invariant-preservation lemmas -/

theorem stateWF_iff (st : Localizer) :
    StateWF st ↔ PairWF st.supported_languages_cache st.lru_order := by
  unfold StateWF SetParity PairWF
  tauto

theorem nodup_retain_push {l : List String} (lang : String) (h : l.Nodup) :
    (listRetain l lang ++ [lang]).Nodup := by
  rw [List.nodup_append]
  refine ⟨listRetain_nodup lang h, List.nodup_singleton lang, ?_⟩
  intro a ha hb
  simp only [List.mem_singleton] at hb
  subst hb
  exact not_mem_listRetain_self ha

theorem pairWF_touch {c : List (String × Table)} {l : List String} {lang : String}
    (hwf : PairWF c l) (hc : lang ∈ keysOf c) :
    PairWF c (listRetain l lang ++ [lang]) := by
  obtain ⟨hpar, hnd, hknd⟩ := hwf
  refine ⟨?_, nodup_retain_push lang hnd, hknd⟩
  intro x
  rw [hpar]
  simp only [List.mem_append, mem_listRetain, List.mem_singleton]
  constructor
  · intro hx
    by_cases hxl : x = lang
    · exact Or.inr hxl
    · exact Or.inl ⟨hx, hxl⟩
  · rintro (⟨hx, _⟩ | rfl)
    · exact hx
    · exact (hpar _).mp hc

theorem pairWF_insert {c : List (String × Table)} {l : List String} {lang : String}
    (t : Table) (hwf : PairWF c l) (hc : lang ∉ keysOf c) :
    PairWF (mapInsert c lang t) (listRetain l lang ++ [lang]) := by
  obtain ⟨hpar, hnd, hknd⟩ := hwf
  refine ⟨?_, nodup_retain_push lang hnd, ?_⟩
  · intro x
    rw [keysOf_mapInsert]
    simp only [List.mem_cons, mem_listRetain, List.mem_append, List.not_mem_nil,
      or_false]
    constructor
    · rintro (rfl | hx)
      · exact Or.inr rfl
      · exact Or.inl ⟨(hpar x).mp hx.1, hx.2⟩
    · rintro (⟨hx, hxl⟩ | rfl)
      · exact Or.inr ⟨(hpar x).mpr hx, hxl⟩
      · exact Or.inl rfl
  · rw [keysOf_mapInsert]
    rw [List.nodup_cons]
    exact ⟨not_mem_listRetain_self, listRetain_nodup lang hknd⟩

theorem pairWF_evict {c : List (String × Table)} {l : List String}
    (hwf : PairWF c l) (hne : l ≠ []) :
    PairWF (mapRemove c l.headI) l.tail := by
  obtain ⟨hpar, hnd, hknd⟩ := hwf
  cases l with
  | nil => exact absurd rfl hne
  | cons h t =>
    rw [List.nodup_cons] at hnd
    simp only [List.headI, List.tail]
    refine ⟨?_, hnd.2, ?_⟩
    · intro x
      rw [keysOf_mapRemove, mem_listRetain, hpar]
      simp only [List.mem_cons]
      constructor
      · rintro ⟨rfl | hx, hxh⟩
        · exact absurd rfl hxh
        · exact hx
      · intro hx
        refine ⟨Or.inr hx, ?_⟩
        rintro rfl
        exact hnd.1 hx
    · rw [keysOf_mapRemove]
      exact listRetain_nodup _ hknd

theorem pairWF_remove {c : List (String × Table)} {l : List String} (k : String)
    (hwf : PairWF c l) :
    PairWF (mapRemove c k) (listRetain l k) := by
  obtain ⟨hpar, hnd, hknd⟩ := hwf
  refine ⟨?_, listRetain_nodup k hnd, ?_⟩
  · intro x
    rw [keysOf_mapRemove, mem_listRetain, mem_listRetain, hpar]
  · rw [keysOf_mapRemove]
    exact listRetain_nodup k hknd

theorem manager_ok_wf {env : Env} {st : Localizer} {key lang : String}
    {b : Bool} {st' : Localizer}
    (hwf : StateWF st)
    (h : langs_cache_manager env st key lang = (.ok b, st')) : StateWF st' := by
  rw [stateWF_iff] at hwf ⊢
  cases hc : mapContains st.supported_languages_cache lang with
  | true =>
    rw [manager_hit env st key lang hc] at h
    simp only [Prod.mk.injEq] at h
    rw [← h.2]
    exact pairWF_touch hwf (mapContains_iff.mp hc)
  | false =>
    cases hl : loadTable env st.supported_languages lang with
    | error e =>
      rw [manager_miss_error env st key lang e hc hl] at h
      simp at h
    | ok t =>
      rw [manager_miss_ok env st key lang t hc hl] at h
      have hmem : lang ∉ keysOf st.supported_languages_cache :=
        mapContains_eq_false_iff.mp hc
      split at h
      · simp only [Prod.mk.injEq] at h
        rw [← h.2]
        exact pairWF_insert t hwf hmem
      · simp only [Prod.mk.injEq] at h
        rw [← h.2]
        exact pairWF_evict (pairWF_insert t hwf hmem) (by simp)

/-! ## Rescan and the remaining operations -/

theorem keysOf_filterKeys {α : Type} (g : String → Bool) (m : List (String × α)) :
    keysOf (m.filter (fun p => g p.1)) = (keysOf m).filter g := by
  induction m with
  | nil => rfl
  | cons p rest ih =>
    by_cases h : g p.1 = true <;> simpa [keysOf, List.filter_cons, h] using ih

theorem pairWF_filterBoth (g : String → Bool) {c : List (String × Table)}
    {l : List String} (hwf : PairWF c l) :
    PairWF (c.filter (fun p => g p.1)) (l.filter g) := by
  obtain ⟨hpar, hnd, hknd⟩ := hwf
  refine ⟨?_, hnd.filter g, ?_⟩
  · intro x
    rw [keysOf_filterKeys]
    simp only [List.mem_filter]
    rw [hpar]
  · rw [keysOf_filterKeys]
    exact hknd.filter g

theorem foldl_mapRemove_eq_filter {α : Type} (cat : List (String × PathBuf))
    (c : List (String × α)) :
    cat.foldl (fun m p => mapRemove m p.1) c
      = c.filter (fun q => !mapContains cat q.1) := by
  induction cat generalizing c with
  | nil => simp [mapContains, mapGet]
  | cons p rest ih =>
    simp only [List.foldl_cons]
    rw [ih, mapRemove, List.filter_filter]
    apply List.filter_congr
    intro q _
    by_cases h : p.1 = q.1
    · simp [mapContains, mapGet, h]
    · simp [mapContains, mapGet, h, Ne.symm h]

theorem foldl_listRetain_eq_filter (cat : List (String × PathBuf))
    (l : List String) :
    cat.foldl (fun acc p => listRetain acc p.1) l
      = l.filter (fun x => !mapContains cat x) := by
  induction cat generalizing l with
  | nil => simp [mapContains, mapGet]
  | cons p rest ih =>
    simp only [List.foldl_cons]
    rw [ih, listRetain, List.filter_filter]
    apply List.filter_congr
    intro x _
    by_cases h : p.1 = x
    · simp [mapContains, mapGet, h]
    · simp [mapContains, mapGet, h, Ne.symm h]

theorem rescan_ok_shape (env : Env) (st : Localizer)
    (newCat : List (String × PathBuf)) (hscan : env.scanResult = .ok newCat) :
    rescan_languages env st =
      (.ok true,
        { st with
          supported_languages := newCat
          supported_languages_cache :=
            st.supported_languages_cache.filter (fun q => !mapContains newCat q.1)
          lru_order := st.lru_order.filter (fun x => !mapContains newCat x) }) := by
  simp only [rescan_languages, hscan]
  rw [foldl_mapRemove_eq_filter, foldl_listRetain_eq_filter]

theorem rescan_ok_wf {env : Env} {st st' : Localizer} {b : Bool}
    (hwf : StateWF st) (h : rescan_languages env st = (.ok b, st')) :
    StateWF st' := by
  rw [stateWF_iff] at hwf ⊢
  cases hscan : env.scanResult with
  | error e =>
    simp [rescan_languages, hscan] at h
  | ok newCat =>
    rw [rescan_ok_shape env st newCat hscan] at h
    simp only [Prod.mk.injEq] at h
    rw [← h.2]
    exact pairWF_filterBoth (fun x => !mapContains newCat x) hwf

theorem get_text_state_eq (env : Env) (st : Localizer) (key lang fb : String) :
    (get_text_by_key env st key lang fb).2 =
      (langs_cache_manager env st key
        (resolveLang st.supported_languages lang fb)).2 := by
  unfold get_text_by_key
  rcases langs_cache_manager env st key
      (resolveLang st.supported_languages lang fb) with ⟨res, st2⟩
  cases res with
  | error e => rfl
  | ok passing =>
    dsimp only
    cases hg : mapGet st2.supported_languages_cache
        (resolveLang st.supported_languages lang fb) with
    | none => simp [hg]
    | some m =>
      cases passing
      · rfl
      · by_cases hk : mapContains m key = true
        · simp only [hk, if_true]
          rcases mapGet m key with _ | v <;> rfl
        · simp [hk]

theorem get_text_ok_shape {env : Env} {st st2 : Localizer}
    {key lang fb : String} {b : Bool}
    (hm : langs_cache_manager env st key
      (resolveLang st.supported_languages lang fb) = (.ok b, st2)) :
    get_text_by_key env st key lang fb =
      (match mapGet st2.supported_languages_cache
          (resolveLang st.supported_languages lang fb) with
       | none => (.error ⟨.NotFound, "Language not found in cache"⟩, st2)
       | some lang_map =>
         if b then
           if mapContains lang_map key then
             match mapGet lang_map key with
             | some v => (.ok v, st2)
             | none => (.error ⟨.NotFound, "Key not found in language map"⟩, st2)
           else
             (.error ⟨.NotFound, "Key not found in language map"⟩, st2)
         else
           (.error ⟨.Other, "Failed to manage language cache"⟩, st2)) := by
  unfold get_text_by_key
  rw [hm]

theorem get_text_error_shape {env : Env} {st st2 : Localizer}
    {key lang fb : String} {e : IoError}
    (hm : langs_cache_manager env st key
      (resolveLang st.supported_languages lang fb) = (.error e, st2)) :
    get_text_by_key env st key lang fb = (.error e, st2) := by
  unfold get_text_by_key
  rw [hm]

theorem get_text_ok_wf {env : Env} {st st' : Localizer}
    {key lang fb r : String} (hwf : StateWF st)
    (h : get_text_by_key env st key lang fb = (.ok r, st')) : StateWF st' := by
  rcases hm : langs_cache_manager env st key
      (resolveLang st.supported_languages lang fb) with ⟨res, st2⟩
  cases res with
  | error e =>
    rw [get_text_error_shape hm] at h
    simp at h
  | ok b =>
    have hst : st' = st2 := by
      have h2 := get_text_state_eq env st key lang fb
      rw [h, hm] at h2
      exact h2
    subst hst
    exact manager_ok_wf hwf hm

theorem reload_ok_wf {env : Env} {st st' : Localizer} {lang : String} {b : Bool}
    (hwf : StateWF st)
    (h : reload_language env st lang = (.ok b, st')) : StateWF st' := by
  unfold reload_language at h
  by_cases hc : mapContains st.supported_languages lang = true
  · rw [if_pos hc] at h
    rcases hm : langs_cache_manager env
        { st with
          supported_languages_cache := mapRemove st.supported_languages_cache lang
          lru_order := listRetain st.lru_order lang } "" lang with ⟨res, st2⟩
    rw [hm] at h
    cases res with
    | error e => simp at h
    | ok b2 =>
      dsimp only at h
      have hwf1 : StateWF { st with
          supported_languages_cache := mapRemove st.supported_languages_cache lang
          lru_order := listRetain st.lru_order lang } := by
        rw [stateWF_iff] at hwf ⊢
        exact pairWF_remove lang hwf
      have hwf2 := manager_ok_wf hwf1 hm
      simp only [Prod.mk.injEq] at h
      rw [← h.2]
      exact hwf2
  · rw [if_neg hc] at h
    simp at h

theorem reload_all_ok_wf {env : Env} {st st' : Localizer} {b : Bool}
    (h : reload_all env st = (.ok b, st')) : StateWF st' := by
  unfold reload_all at h
  rcases hr : rescan_languages env
      { st with supported_languages_cache := [], lru_order := [] } with ⟨res, st2⟩
  rw [hr] at h
  cases res with
  | error e => simp at h
  | ok b2 =>
    dsimp only at h
    have hwf1 : StateWF { st with
        supported_languages_cache := ([] : List (String × Table)),
        lru_order := ([] : List String) } := by
      rw [stateWF_iff]
      refine ⟨fun x => ?_, List.nodup_nil, List.nodup_nil⟩
      simp [keysOf]
    have hwf2 := rescan_ok_wf hwf1 hr
    simp only [Prod.mk.injEq] at h
    rw [← h.2]
    exact hwf2

theorem headI_mem {l : List String} (h : l ≠ []) : l.headI ∈ l := by
  cases l with
  | nil => exact absurd rfl h
  | cons a t => exact List.mem_cons_self a t

theorem manager_ok_capacity {env : Env} {st st' : Localizer}
    {key lang : String} {b : Bool} (hwf : StateWF st)
    (hlen : st.supported_languages_cache.length ≤ st.sup_lang_cache_limit)
    (h : langs_cache_manager env st key lang = (.ok b, st')) :
    st'.supported_languages_cache.length ≤ st.sup_lang_cache_limit ∧
    (mapContains st.supported_languages_cache lang = false →
      st.supported_languages_cache.length = st.sup_lang_cache_limit →
      st'.supported_languages_cache.length = st.sup_lang_cache_limit) := by
  cases hc : mapContains st.supported_languages_cache lang with
  | true =>
    rw [manager_hit env st key lang hc] at h
    simp only [Prod.mk.injEq] at h
    rw [← h.2]
    exact ⟨hlen, fun hf _ => Bool.noConfusion hf⟩
  | false =>
    cases hl : loadTable env st.supported_languages lang with
    | error e =>
      rw [manager_miss_error env st key lang e hc hl] at h
      simp at h
    | ok t =>
      rw [manager_miss_ok env st key lang t hc hl] at h
      have hnotmem : lang ∉ keysOf st.supported_languages_cache :=
        mapContains_eq_false_iff.mp hc
      have hrm : mapRemove st.supported_languages_cache lang
          = st.supported_languages_cache := mapRemove_of_not_contains hc
      have hlen2 : (mapInsert st.supported_languages_cache lang t).length
          = st.supported_languages_cache.length + 1 := by
        simp [mapInsert, hrm]
      split at h
      case isTrue hle =>
        simp only [Prod.mk.injEq] at h
        rw [← h.2]
        dsimp only
        exact ⟨hle, fun _ heq => by omega⟩
      case isFalse hgt =>
        simp only [Prod.mk.injEq] at h
        rw [← h.2]
        dsimp only
        have hwffp : PairWF (mapInsert st.supported_languages_cache lang t)
            (listRetain st.lru_order lang ++ [lang]) :=
          pairWF_insert t ((stateWF_iff st).mp hwf) hnotmem
        have hne : (listRetain st.lru_order lang ++ [lang]) ≠ [] := by simp
        have hmem2 : (listRetain st.lru_order lang ++ [lang]).headI ∈
            keysOf (mapInsert st.supported_languages_cache lang t) :=
          (hwffp.1 _).mpr (headI_mem hne)
        have hlen3 := length_mapRemove_add_one hwffp.2.2 hmem2
        exact ⟨by omega, fun _ heq => by omega⟩

theorem mapGet_filterKeys {α : Type} (g : String → Bool) (m : List (String × α))
    (k : String) (hk : g k = true) :
    mapGet (m.filter (fun p => g p.1)) k = mapGet m k := by
  induction m with
  | nil => rfl
  | cons p rest ih =>
    obtain ⟨k', v⟩ := p
    by_cases hp : g k' = true
    · have h1 : List.filter (fun q => g q.1) ((k', v) :: rest)
          = (k', v) :: List.filter (fun q => g q.1) rest := by
        simp [List.filter_cons, hp]
      rw [h1]
      show (if k' = k then some v else mapGet (List.filter (fun q => g q.1) rest) k)
          = (if k' = k then some v else mapGet rest k)
      by_cases hpk : k' = k
      · rw [if_pos hpk, if_pos hpk]
      · rw [if_neg hpk, if_neg hpk]
        exact ih
    · have h1 : List.filter (fun q => g q.1) ((k', v) :: rest)
          = List.filter (fun q => g q.1) rest := by
        simp [List.filter_cons, hp]
      rw [h1]
      have hpk : k' ≠ k := by
        rintro rfl
        exact hp hk
      show mapGet (List.filter (fun q => g q.1) rest) k
          = (if k' = k then some v else mapGet rest k)
      rw [if_neg hpk]
      exact ih

/-! ## Claims -/

theorem initLocalizer_wf (cat : List (String × PathBuf)) (limit : Nat) :
    StateWF (initLocalizer cat limit) :=
  ⟨⟨fun _ => Iff.rfl, List.nodup_nil⟩, List.nodup_nil⟩

theorem stAB_wf : StateWF stAB :=
  ⟨⟨fun _ => Iff.rfl, by decide⟩, by decide⟩

/-- C1, counterexample: the set-parity invariant as claimed (for all
reachable states, including ones reached through operations that returned
errors) is false.  One `get_text_by_key` from a freshly constructed
`Localizer` with an empty catalog fails its load but leaves "en-GB" in
`lru_order` while the cache mapping stays empty. -/
theorem C1_parity_counterexample :
    ¬ SetParity (get_text_by_key envEmpty (initLocalizer [] 5) "greeting" "xx" "").2 := by
  intro h
  exact absurd ((h.1 "en-GB").mpr (by decide)) (by decide)

/-- C1 (amended): the set-parity invariant (cache keys = recency elements
as sets, recency duplicate-free) holds in the initial state and is
preserved by every `get_text_by_key`, `reload_language`,
`rescan_languages` and `reload_all` that returns `Ok`; an operation whose
load fails can instead leave the requested code in the recency sequence
without a cache entry. -/
theorem C1_parity_invariant (env : Env) (st : Localizer) (hwf : StateWF st) :
    (∀ cat limit, StateWF (initLocalizer cat limit)) ∧
    (∀ key lang fb r st',
      get_text_by_key env st key lang fb = (.ok r, st') → StateWF st') ∧
    (∀ lang b st', reload_language env st lang = (.ok b, st') → StateWF st') ∧
    (∀ b st', rescan_languages env st = (.ok b, st') → StateWF st') ∧
    (∀ b st', reload_all env st = (.ok b, st') → StateWF st') := by
  refine ⟨initLocalizer_wf, ?_, ?_, ?_, ?_⟩
  · intro key lang fb r st' h
    exact get_text_ok_wf hwf h
  · intro lang b st' h
    exact reload_ok_wf hwf h
  · intro b st' h
    exact rescan_ok_wf hwf h
  · intro b st' h
    exact reload_all_ok_wf h

theorem C1_parity_invariant_witness :
    StateWF ⟨[("b", "pb"), ("c", "pc")], [("b", [("k", "vb")])], ["b"], 1⟩ :=
  (C1_parity_invariant envC3 (initLocalizer catC3 1)
      (initLocalizer_wf catC3 1)).2.1 "k" "b" "" "vb"
    ⟨[("b", "pb"), ("c", "pc")], [("b", [("k", "vb")])], ["b"], 1⟩ rfl

/-- C2, counterexample: load-failure atomicity as claimed is false.  With
an empty catalog, asking the cache manager for the absent code "xx" fails
the load but changes the recency sequence from `[]` to `["xx"]`. -/
theorem C2_atomicity_counterexample :
    mapContains (initLocalizer [] 5).supported_languages_cache "xx" = false ∧
    (langs_cache_manager envEmpty (initLocalizer [] 5) "" "xx").1 =
      .error ⟨.NotFound, "Language file not found"⟩ ∧
    (langs_cache_manager envEmpty (initLocalizer [] 5) "" "xx").2.lru_order
      ≠ (initLocalizer [] 5).lru_order := by
  refine ⟨rfl, rfl, ?_⟩
  decide

/-- C2 (amended): when loading an uncached code fails, the error is the
load failure and the cache mapping and catalog are unchanged — but the
recency sequence is not: the code has been moved/appended to its back
before the load was attempted. -/
theorem C2_load_failure (env : Env) (st : Localizer) (key lang : String)
    (e : IoError) (st' : Localizer)
    (hc : mapContains st.supported_languages_cache lang = false)
    (h : langs_cache_manager env st key lang = (.error e, st')) :
    st'.supported_languages_cache = st.supported_languages_cache ∧
    st'.lru_order = listRetain st.lru_order lang ++ [lang] ∧
    st'.supported_languages = st.supported_languages ∧
    loadTable env st.supported_languages lang = .error e := by
  cases hl : loadTable env st.supported_languages lang with
  | error e2 =>
    rw [manager_miss_error env st key lang e2 hc hl] at h
    have h1 : e2 = e := by
      have h0 := congrArg Prod.fst h
      dsimp only at h0
      exact Except.error.inj h0
    subst h1
    have h2 := congrArg Prod.snd h
    dsimp only at h2
    subst h2
    exact ⟨rfl, rfl, rfl, rfl⟩
  | ok t =>
    rw [manager_miss_ok env st key lang t hc hl] at h
    split at h <;> simp at h

theorem C2_load_failure_witness :
    (⟨[], [], ["xx"], 5⟩ : Localizer).supported_languages_cache
      = (initLocalizer [] 5).supported_languages_cache ∧
    (⟨[], [], ["xx"], 5⟩ : Localizer).lru_order
      = listRetain (initLocalizer [] 5).lru_order "xx" ++ ["xx"] ∧
    (⟨[], [], ["xx"], 5⟩ : Localizer).supported_languages
      = (initLocalizer [] 5).supported_languages ∧
    loadTable envEmpty (initLocalizer [] 5).supported_languages "xx"
      = .error ⟨.NotFound, "Language file not found"⟩ :=
  C2_load_failure envEmpty (initLocalizer [] 5) "" "xx"
    ⟨.NotFound, "Language file not found"⟩ ⟨[], [], ["xx"], 5⟩ rfl rfl

/-- C3, counterexample: the capacity bound as claimed is false in a
reachable state.  From `initLocalizer catC3 1`, a failed lookup leaves the
phantom code "yy" at the front of the recency sequence; loading "b" and
then "c" makes the eviction remove the phantom instead of a real entry,
and the manager returns `Ok` with a cache of size 2 over the limit 1. -/
theorem C3_capacity_counterexample :
    stPhantomB.sup_lang_cache_limit = 1 ∧
    (langs_cache_manager envC3 stPhantomB "k" "c").1 = .ok true ∧
    (langs_cache_manager envC3 stPhantomB "k" "c").2.supported_languages_cache.length
      = 2 :=
  ⟨rfl, rfl, rfl⟩

/-- C3 (amended): in states satisfying the set-parity invariant and the
capacity bound, every `Ok` return of `langs_cache_manager` keeps the cache
size at most `sup_lang_cache_limit`, and an insertion of a new language
into a full cache evicts exactly one entry and restores the size to
exactly the limit. -/
theorem C3_capacity (env : Env) (st : Localizer) (key lang : String) (b : Bool)
    (st' : Localizer) (hwf : StateWF st)
    (hlen : st.supported_languages_cache.length ≤ st.sup_lang_cache_limit)
    (h : langs_cache_manager env st key lang = (.ok b, st')) :
    st'.supported_languages_cache.length ≤ st.sup_lang_cache_limit ∧
    (mapContains st.supported_languages_cache lang = false →
      st.supported_languages_cache.length = st.sup_lang_cache_limit →
      st'.supported_languages_cache.length = st.sup_lang_cache_limit) :=
  manager_ok_capacity hwf hlen h

theorem C3_capacity_witness :
    (⟨catABC, [("c", [("k", "pc")]), ("b", [("k", "vb")])], ["b", "c"], 2⟩
        : Localizer).supported_languages_cache.length
      ≤ stAB.sup_lang_cache_limit ∧
    (mapContains stAB.supported_languages_cache "c" = false →
      stAB.supported_languages_cache.length = stAB.sup_lang_cache_limit →
      (⟨catABC, [("c", [("k", "pc")]), ("b", [("k", "vb")])], ["b", "c"], 2⟩
          : Localizer).supported_languages_cache.length
        = stAB.sup_lang_cache_limit) :=
  C3_capacity envABC stAB "k" "c" true
    ⟨catABC, [("c", [("k", "pc")]), ("b", [("k", "vb")])], ["b", "c"], 2⟩
    stAB_wf (by decide) rfl

/-- C4: with capacity 2 and an empty cache, successfully loading three
distinct languages a, b, c in order leaves exactly {b, c} cached: the
third insertion evicts the front of the recency sequence (a, the least
recently used) from both the mapping and the sequence. -/
theorem C4_lru_eviction (env : Env) (cat : List (String × PathBuf))
    (a b c : String) (ta tb tc : Table)
    (hab : a ≠ b) (hac : a ≠ c) (hbc : b ≠ c)
    (ha : loadTable env cat a = .ok ta)
    (hb : loadTable env cat b = .ok tb)
    (hc : loadTable env cat c = .ok tc) :
    langs_cache_manager env (initLocalizer cat 2) "" a
      = (.ok true, ⟨cat, [(a, ta)], [a], 2⟩) ∧
    langs_cache_manager env ⟨cat, [(a, ta)], [a], 2⟩ "" b
      = (.ok true, ⟨cat, [(b, tb), (a, ta)], [a, b], 2⟩) ∧
    langs_cache_manager env ⟨cat, [(b, tb), (a, ta)], [a, b], 2⟩ "" c
      = (.ok true, ⟨cat, [(c, tc), (b, tb)], [b, c], 2⟩) ∧
    keysOf (⟨cat, [(c, tc), (b, tb)], [b, c], 2⟩
        : Localizer).supported_languages_cache = [c, b] ∧
    mapContains (⟨cat, [(c, tc), (b, tb)], [b, c], 2⟩
        : Localizer).supported_languages_cache a = false := by
  refine ⟨?_, ?_, ?_, rfl, ?_⟩
  · rw [manager_miss_ok env (initLocalizer cat 2) "" a ta rfl ha]
    rfl
  · have hc1 : mapContains ([(a, ta)] : List (String × Table)) b = false := by
      simp only [mapContains, mapGet]
      rw [if_neg hab]
      rfl
    rw [manager_miss_ok env ⟨cat, [(a, ta)], [a], 2⟩ "" b tb hc1 hb]
    simp [mapInsert, mapRemove, listRetain, hab, Ne.symm hab]
  · have hc2 : mapContains ([(b, tb), (a, ta)] : List (String × Table)) c
        = false := by
      simp only [mapContains, mapGet]
      rw [if_neg hbc, if_neg hac]
      rfl
    rw [manager_miss_ok env ⟨cat, [(b, tb), (a, ta)], [a, b], 2⟩ "" c tc hc2 hc]
    simp [mapInsert, mapRemove, listRetain, hab, hac, hbc, Ne.symm hab, Ne.symm hac,
      Ne.symm hbc]
  · simp only [mapContains, mapGet]
    rw [if_neg (Ne.symm hac), if_neg (Ne.symm hab)]
    rfl

theorem C4_lru_eviction_witness :
    keysOf (⟨catABC, [("c", [("k", "pc")]), ("b", [("k", "pb")])], ["b", "c"], 2⟩
        : Localizer).supported_languages_cache = ["c", "b"] ∧
    mapContains (⟨catABC, [("c", [("k", "pc")]), ("b", [("k", "pb")])], ["b", "c"], 2⟩
        : Localizer).supported_languages_cache "a" = false :=
  (C4_lru_eviction envABC catABC "a" "b" "c" [("k", "pa")] [("k", "pb")] [("k", "pc")]
    (by decide) (by decide) (by decide) rfl rfl rfl).2.2.2

/-- C5: touching a cached code returns `Ok(true)`, moves the code to the
back of the recency sequence, leaves the cache mapping (hence the stored
table) unchanged, and performs no I/O — the result does not depend on the
environment; consequently with cache {a, b}, recency [a, b] and capacity
2, touching a and then inserting a new language c evicts b, not a. -/
theorem C5_recency_on_hit :
    (∀ (env env2 : Env) (st : Localizer) (key key2 lang : String),
      mapContains st.supported_languages_cache lang = true →
      langs_cache_manager env st key lang =
        (.ok true, { st with lru_order := listRetain st.lru_order lang ++ [lang] }) ∧
      langs_cache_manager env st key lang = langs_cache_manager env2 st key2 lang) ∧
    (∀ (env : Env) (cat : List (String × PathBuf)) (a b c : String)
        (ta tb tc : Table), a ≠ b → a ≠ c → b ≠ c →
      loadTable env cat c = .ok tc →
      langs_cache_manager env ⟨cat, [(a, ta), (b, tb)], [a, b], 2⟩ "" a
        = (.ok true, ⟨cat, [(a, ta), (b, tb)], [b, a], 2⟩) ∧
      langs_cache_manager env ⟨cat, [(a, ta), (b, tb)], [b, a], 2⟩ "" c
        = (.ok true, ⟨cat, [(c, tc), (a, ta)], [a, c], 2⟩) ∧
      mapGet (⟨cat, [(c, tc), (a, ta)], [a, c], 2⟩
          : Localizer).supported_languages_cache a = some ta ∧
      mapContains (⟨cat, [(c, tc), (a, ta)], [a, c], 2⟩
          : Localizer).supported_languages_cache b = false) := by
  constructor
  · intro env env2 st key key2 lang h
    refine ⟨manager_hit env st key lang h, ?_⟩
    rw [manager_hit env st key lang h, manager_hit env2 st key2 lang h]
  · intro env cat a b c ta tb tc hab hac hbc hc
    refine ⟨?_, ?_, ?_, ?_⟩
    · have h1 : mapContains ([(a, ta), (b, tb)] : List (String × Table)) a = true := by
        simp [mapContains, mapGet]
      rw [manager_hit env ⟨cat, [(a, ta), (b, tb)], [a, b], 2⟩ "" a h1]
      simp [listRetain, Ne.symm hab]
    · have h2 : mapContains ([(a, ta), (b, tb)] : List (String × Table)) c = false := by
        simp only [mapContains, mapGet]
        rw [if_neg hac, if_neg hbc]
        rfl
      rw [manager_miss_ok env ⟨cat, [(a, ta), (b, tb)], [b, a], 2⟩ "" c tc h2 hc]
      simp [mapInsert, mapRemove, listRetain, hab, hac, hbc, Ne.symm hab, Ne.symm hac,
        Ne.symm hbc]
    · simp only [mapGet]
      rw [if_neg (Ne.symm hac)]
      rfl
    · simp only [mapContains, mapGet]
      rw [if_neg (Ne.symm hbc), if_neg hab]
      rfl

theorem C5_recency_on_hit_witness :
    mapGet (⟨catABC, [("c", [("k", "pc")]), ("a", [("k", "va")])], ["a", "c"], 2⟩
        : Localizer).supported_languages_cache "a" = some [("k", "va")] ∧
    mapContains (⟨catABC, [("c", [("k", "pc")]), ("a", [("k", "va")])], ["a", "c"], 2⟩
        : Localizer).supported_languages_cache "b" = false :=
  (C5_recency_on_hit.2 envABC catABC "a" "b" "c" [("k", "va")] [("k", "vb")]
    [("k", "pc")] (by decide) (by decide) (by decide) rfl).2.2

/-- C6: the effective language of `get_text_by_key` is the requested
language when it is a catalog key, otherwise the fallback when the
fallback is non-empty, otherwise "en-GB" — without re-validating the
fallback against the catalog; it is a pure function of the three inputs,
and the state mutated by `get_text_by_key` is exactly the one produced by
the cache manager run on that resolved language. -/
theorem C6_resolver :
    (∀ (catalog : List (String × PathBuf)) (lang fb : String),
      resolveLang catalog lang fb =
        (if mapContains catalog lang then lang
         else if fb = "" then "en-GB" else fb)) ∧
    resolveLang [("fr", "pf"), ("en-GB", "pe")] "xx" "fr" = "fr" ∧
    resolveLang [("en-GB", "pe")] "xx" "" = "en-GB" ∧
    resolveLang [("en-GB", "pe"), ("fr", "pf")] "en-GB" "fr" = "en-GB" ∧
    (∀ (env : Env) (st : Localizer) (key lang fb : String),
      (get_text_by_key env st key lang fb).2 =
        (langs_cache_manager env st key
          (resolveLang st.supported_languages lang fb)).2) := by
  refine ⟨?_, rfl, rfl, rfl, get_text_state_eq⟩
  intro catalog lang fb
  unfold resolveLang
  by_cases hcat : mapContains catalog lang = true
  · simp [hcat]
  · by_cases hf : fb = ""
    · simp [hcat, hf]
    · simp [hcat, hf]

/-- C7: `rescan_languages` replaces the Catalog Index wholesale with the
fresh enumeration; every code of the *new* catalog is removed from the
cache mapping and the recency sequence, while entries whose codes are
absent from the new catalog are kept exactly as they were (orphaned). -/
theorem C7_rescan_frame (env : Env) (st : Localizer)
    (newCat : List (String × PathBuf)) (hscan : env.scanResult = .ok newCat) :
    ∃ st', rescan_languages env st = (.ok true, st') ∧
      st'.supported_languages = newCat ∧
      (∀ lang, mapContains newCat lang = true →
        mapContains st'.supported_languages_cache lang = false ∧
        lang ∉ st'.lru_order) ∧
      st'.supported_languages_cache =
        st.supported_languages_cache.filter (fun q => !mapContains newCat q.1) ∧
      st'.lru_order = st.lru_order.filter (fun x => !mapContains newCat x) ∧
      (∀ lang, mapContains newCat lang = false →
        mapGet st'.supported_languages_cache lang
          = mapGet st.supported_languages_cache lang ∧
        (lang ∈ st'.lru_order ↔ lang ∈ st.lru_order)) := by
  refine ⟨_, rescan_ok_shape env st newCat hscan, rfl, ?_, rfl, rfl, ?_⟩
  · intro lang hl
    constructor
    · rw [mapContains_eq_false_iff]
      intro hmem
      simp only [keysOf, List.mem_map] at hmem
      obtain ⟨q, hq, hql⟩ := hmem
      rw [List.mem_filter] at hq
      rw [hql, hl] at hq
      exact Bool.noConfusion hq.2
    · intro hmem
      rw [List.mem_filter] at hmem
      rw [hl] at hmem
      exact Bool.noConfusion hmem.2
  · intro lang hl
    constructor
    · refine mapGet_filterKeys (fun x => !mapContains newCat x)
        st.supported_languages_cache lang ?_
      show (!mapContains newCat lang) = true
      rw [hl]
      rfl
    · rw [List.mem_filter]
      constructor
      · exact fun hx => hx.1
      · intro hx
        refine ⟨hx, ?_⟩
        rw [hl]
        rfl

theorem C7_rescan_frame_witness :
    ∃ st', rescan_languages envScan stAB = (.ok true, st') ∧
      st'.supported_languages = [("b", "pb2"), ("d", "pd")] ∧
      (∀ lang, mapContains [("b", "pb2"), ("d", "pd")] lang = true →
        mapContains st'.supported_languages_cache lang = false ∧
        lang ∉ st'.lru_order) ∧
      st'.supported_languages_cache =
        stAB.supported_languages_cache.filter
          (fun q => !mapContains [("b", "pb2"), ("d", "pd")] q.1) ∧
      st'.lru_order = stAB.lru_order.filter
        (fun x => !mapContains [("b", "pb2"), ("d", "pd")] x) ∧
      (∀ lang, mapContains [("b", "pb2"), ("d", "pd")] lang = false →
        mapGet st'.supported_languages_cache lang
          = mapGet stAB.supported_languages_cache lang ∧
        (lang ∈ st'.lru_order ↔ lang ∈ stAB.lru_order)) :=
  C7_rescan_frame envScan stAB [("b", "pb2"), ("d", "pd")] rfl

/-- C8, counterexample: the KeyMiss error does not name the missing key
(nor the effective language): for a loaded table lacking the key
"greeting", the error message is the fixed string "Key not found in
language map", which does not contain "greeting". -/
theorem C8_keymiss_counterexample :
    (get_text_by_key envC8 (initLocalizer [("en-GB", "p")] 5) "greeting" "en-GB" "").1
      = .error ⟨.NotFound, "Key not found in language map"⟩ ∧
    ¬ mentions "Key not found in language map" "greeting" ∧
    ¬ mentions "Key not found in language map" "en-GB" := by
  refine ⟨rfl, ?_, ?_⟩ <;> decide

/-- C8 (amended): when the consulted table lacks the requested key,
`get_text_by_key` fails with a NotFound error whose message is the fixed
string "Key not found in language map", independent of the key and of the
effective language. -/
theorem C8_keymiss (env : Env) (st st2 : Localizer) (key lang fb : String)
    (b : Bool) (t : Table)
    (hm : langs_cache_manager env st key
      (resolveLang st.supported_languages lang fb) = (.ok b, st2))
    (hg : mapGet st2.supported_languages_cache
      (resolveLang st.supported_languages lang fb) = some t)
    (hk : mapContains t key = false) :
    (get_text_by_key env st key lang fb).1 =
      .error ⟨.NotFound, "Key not found in language map"⟩ := by
  have hb : b = true := manager_ok_true hm
  subst hb
  rw [get_text_ok_shape hm, hg]
  dsimp only
  rw [hk]
  simp

theorem C8_keymiss_witness :
    (get_text_by_key envC8 (initLocalizer [("en-GB", "p")] 5) "hello" "en-GB" "").1
      = .error ⟨.NotFound, "Key not found in language map"⟩ :=
  C8_keymiss envC8 (initLocalizer [("en-GB", "p")] 5)
    ⟨[("en-GB", "p")], [("en-GB", [("other", "v")])], ["en-GB"], 5⟩
    "hello" "en-GB" "" true [("other", "v")] rfl rfl rfl

/-- C9: whenever `langs_cache_manager` returns `Ok(b)`, `b` is `true` (the
two `Ok(false)` branches are unreachable because the first two guards are
exhaustive); consequently `get_text_by_key` coincides with the variant in
which the "Failed to manage language cache" branch has been removed. -/
theorem C9_dead_branch :
    (∀ (env : Env) (st : Localizer) (key lang : String) (b : Bool)
        (st' : Localizer),
      langs_cache_manager env st key lang = (.ok b, st') → b = true) ∧
    (∀ (env : Env) (st : Localizer) (key lang fb : String),
      get_text_by_key env st key lang fb
        = get_text_by_key_live env st key lang fb) := by
  constructor
  · intro env st key lang b st' h
    exact manager_ok_true h
  · intro env st key lang fb
    unfold get_text_by_key get_text_by_key_live
    rcases hm : langs_cache_manager env st key
        (resolveLang st.supported_languages lang fb) with ⟨res, st2⟩
    cases res with
    | error e => rfl
    | ok b =>
      have hb : b = true := manager_ok_true hm
      subst hb
      rfl

theorem C9_dead_branch_witness :
    (true = true) ∧
    get_text_by_key envABC (initLocalizer catABC 2) "k" "a" ""
      = get_text_by_key_live envABC (initLocalizer catABC 2) "k" "a" "" :=
  ⟨C9_dead_branch.1 envABC (initLocalizer catABC 2) "k" "a" true
      (langs_cache_manager envABC (initLocalizer catABC 2) "k" "a").2 rfl,
   C9_dead_branch.2 envABC (initLocalizer catABC 2) "k" "a" ""⟩

/-- C10: `reload_language` is not atomic on failure — for a code present
in the catalog, if the forced fresh load fails, the previously cached
table for that code has already been dropped and is not restored: the code
is absent from the cache mapping in the returned state. -/
theorem C10_reload_not_atomic (env : Env) (st : Localizer) (lang : String)
    (e : IoError) (st' : Localizer)
    (hcat : mapContains st.supported_languages lang = true)
    (h : reload_language env st lang = (.error e, st')) :
    mapContains st'.supported_languages_cache lang = false := by
  unfold reload_language at h
  rw [if_pos hcat] at h
  rcases hm : langs_cache_manager env
      { st with
        supported_languages_cache := mapRemove st.supported_languages_cache lang
        lru_order := listRetain st.lru_order lang } "" lang with ⟨res, st2⟩
  rw [hm] at h
  cases res with
  | ok b =>
    dsimp only at h
    simp at h
  | error e2 =>
    dsimp only at h
    simp only [Prod.mk.injEq] at h
    obtain ⟨_, h2⟩ := h
    subst h2
    have hc1 : mapContains (mapRemove st.supported_languages_cache lang) lang
        = false := by
      rw [mapContains_eq_false_iff, keysOf_mapRemove]
      exact not_mem_listRetain_self
    cases hl : loadTable env st.supported_languages lang with
    | ok t =>
      rw [manager_miss_ok env
        { st with
          supported_languages_cache := mapRemove st.supported_languages_cache lang
          lru_order := listRetain st.lru_order lang } "" lang t hc1 hl] at hm
      split at hm <;> simp at hm
    | error e3 =>
      rw [manager_miss_error env
        { st with
          supported_languages_cache := mapRemove st.supported_languages_cache lang
          lru_order := listRetain st.lru_order lang } "" lang e3 hc1 hl] at hm
      simp only [Prod.mk.injEq] at hm
      obtain ⟨_, hm2⟩ := hm
      rw [← hm2]
      exact hc1

theorem C10_reload_not_atomic_witness :
    mapContains (⟨catABC, [("b", [("k", "vb")])], ["b", "a"], 2⟩
        : Localizer).supported_languages_cache "a" = false :=
  C10_reload_not_atomic envFailLoad stAB "a" ⟨.Other, "io fail"⟩
    ⟨catABC, [("b", [("k", "vb")])], ["b", "a"], 2⟩ rfl rfl
